import Mathlib

/-!
Shallow embedding of the definition-resolution pipeline of
zmk_locale_generator/generator.py: the three deduplication passes over
(usage code, character) pairs, the case-insensitive final sort, the
alias-following key lookup, and the name resolver feeding header emission.
-/

namespace ZmkLocale

/-- HID modifier keys (left/right shift, alt, control, gui), the firmware's
fixed modifier table referenced by keys.Modifier. -/
inductive Modifier where
  | lshift | rshift | lalt | ralt | lctrl | rctrl | lgui | rgui
deriving DecidableEq

/-- Modelled from the spec: keys.HidUsage is not under src/. A usage code is
a triple of a modifier set, a usage page and a usage id; equality is
structural on all three fields. -/
structure HidUsage where
  modifiers : Finset Modifier
  page : Nat
  id : Nat
deriving DecidableEq

/-- A key definition pairs a usage code with the character it produces. -/
abbrev KeyDef := HidUsage × Char

/-- Embeds generator._has_shift. -/
def has_shift (modifiers : Finset Modifier) : Prop :=
  Modifier.lshift ∈ modifiers ∨ Modifier.rshift ∈ modifiers

instance : DecidablePred has_shift := fun m => by unfold has_shift; infer_instance

/-- Embeds generator._remove_shift. -/
def remove_shift (modifiers : Finset Modifier) : Finset Modifier :=
  modifiers \ {Modifier.lshift, Modifier.rshift}

/-- A definition is a base definition when its modifier set is empty
(Python truthiness of the frozenset). -/
def isBase (d : KeyDef) : Bool := decide (d.1.modifiers = ∅)

/-- Embeds the inner predicate of generator._dedupe_uppercase, taking the
base-definition list it closes over as an argument. The characters are
compared through Python str.casefold, a CPython library function external
to this repository; the embedding abstracts it as the parameter fold (into
an arbitrary type with decidable equality, since casefold maps a character
to a string), and every theorem below holds for all choices of fold, in
particular for Python's casefold. -/
def is_duplicate_uppercase {σ : Type} [DecidableEq σ] (fold : Char → σ)
    (base_defs : List KeyDef) (a : KeyDef) : Bool :=
  decide (has_shift a.1.modifiers) &&
    base_defs.any fun b =>
      decide (fold a.2 = fold b.2 ∧ remove_shift a.1.modifiers = b.1.modifiers)

/-- Embeds generator._dedupe_uppercase, abstracted over the external
casefold function applied to the characters. -/
def dedupe_uppercase {σ : Type} [DecidableEq σ] (fold : Char → σ)
    (defs : List KeyDef) : List KeyDef :=
  let base_defs := defs.filter isBase
  let mod_defs := defs.filter fun d => ! isBase d
  base_defs ++ mod_defs.filter fun d => ! is_duplicate_uppercase fold base_defs d

/-- Modelled from the spec: util.unique is not under src/. It keeps, in
order, the elements whose key has not been seen before (pass 1 keeps only
the first definition encountered for each usage code). -/
def unique {α β : Type _} [DecidableEq β] (key : α → β) : List α → List β → List α
  | [], _ => []
  | x :: xs, seen =>
    if key x ∈ seen then unique key xs seen else x :: unique key xs (key x :: seen)

/-- Embeds generator._dedupe_same_usage. -/
def dedupe_same_usage (defs : List KeyDef) : List KeyDef :=
  unique Prod.fst defs []

/-- Python min(seq, key=len of modifiers) on the nonempty list u :: rest:
the first element with the fewest modifiers wins. -/
def shortest_mods (u : HidUsage) (rest : List HidUsage) : HidUsage :=
  rest.foldl (fun acc x => if x.modifiers.card < acc.modifiers.card then x else acc) u

/-- One group of the dict built by _dedupe_same_value: the usage codes of
the definitions producing character v, reduced by shortest_mods. Python
cannot reach the empty group, so it maps to none. -/
def groupMin (defs : List KeyDef) (v : Char) : Option KeyDef :=
  match (defs.filter fun d => decide (d.2 = v)).map Prod.fst with
  | [] => none
  | u :: us => some (shortest_mods u us, v)

/-- Embeds generator._dedupe_same_value: group by character in
first-occurrence order (Python dict insertion order) and keep, per
character, the usage code with the fewest modifiers. -/
def dedupe_same_value (defs : List KeyDef) : List KeyDef :=
  (unique id (defs.map Prod.snd) []).filterMap (groupMin defs)

/-- Ordering key of the final sort, defs.sort(key=lambda d: d[1].lower()):
Python str.lower is likewise a CPython library function external to this
repository, abstracted as the parameter low into an arbitrary linearly
ordered key type (Python compares the lowered key strings under their
total lexicographic order); the theorems below hold for every choice of
low, in particular for Python's lower. -/
def leKey {κ : Type} [LinearOrder κ] (low : Char → κ) (a b : KeyDef) : Prop :=
  low a.2 ≤ low b.2

instance {κ : Type} [LinearOrder κ] (low : Char → κ) : DecidableRel (leKey low) :=
  fun a b => by unfold leKey; infer_instance

instance {κ : Type} [LinearOrder κ] (low : Char → κ) : IsTotal KeyDef (leKey low) :=
  ⟨fun _ _ => le_total _ _⟩

instance {κ : Type} [LinearOrder κ] (low : Char → κ) : IsTrans KeyDef (leKey low) :=
  ⟨fun _ _ _ h h2 => le_trans h h2⟩

/-- Python's stable list.sort modelled by stable insertion sort. -/
def sortKeyDefs {κ : Type} [LinearOrder κ] (low : Char → κ)
    (defs : List KeyDef) : List KeyDef :=
  List.insertionSort (leKey low) defs

/-- The character class of a definition under the case-insensitive sort key. -/
def charKey {κ : Type} (low : Char → κ) (d : KeyDef) : κ := low d.2

/-- Embeds generator._get_key_definitions on an already built raw
definition list: the three dedupe passes followed by the final sort,
abstracted over the external casefold and lower functions. -/
def get_key_definitions {σ κ : Type} [DecidableEq σ] [LinearOrder κ]
    (fold : Char → σ) (low : Char → κ) (defs : List KeyDef) : List KeyDef :=
  sortKeyDefs low (dedupe_same_value (dedupe_uppercase fold (dedupe_same_usage defs)))

/-- A concrete fragment of Python str.casefold and str.lower, used by the
concrete instances below: on ASCII letters both agree with Char.toLower,
and the pair A-umlaut / a-umlaut folds (and lowers) to a-umlaut, as in
Python. -/
def foldDemo (c : Char) : Char :=
  if c = 'Ä' then 'ä' else c.toLower

/-- An entry of the parsed keys table: a usage code, an alias to another
key name, or a value of any other shape (rejected by _lookup_usage). -/
inductive KeyEntry where
  | usage (u : HidUsage)
  | keyAlias (target : String)
  | invalid
deriving DecidableEq

/-- The keys table, in dict iteration order. -/
abbrev KeyTable := List (String × KeyEntry)

/-- Python dict access self.keys[name], as an association-list lookup. -/
def keysFind (ks : KeyTable) (name : String) : Option KeyEntry :=
  (ks.find? fun kv => kv.1 == name).map Prod.snd

/-- Failure modes of _lookup_usage: the dict KeyError for a missing name,
the explicit ValueError for a non-usage non-alias value, and exhaustion of
the fuel that models the unguarded Python recursion. -/
inductive LookupError where
  | keyError | valueError | outOfFuel
deriving DecidableEq

/-- Embeds generator._lookup_usage. The Python recursion has no termination
guard, so the model takes explicit fuel; any fuel at least the alias chain
length gives the Python behaviour. -/
def lookup_usage (ks : KeyTable) : Nat → String → Except LookupError HidUsage
  | 0, _ => .error .outOfFuel
  | fuel + 1, name =>
    match keysFind ks name with
    | none => .error .keyError
    | some (.usage u) => .ok u
    | some (.keyAlias a) => lookup_usage ks fuel a
    | some .invalid => .error .valueError

/-- The finite, acyclic alias chains that end at a usage code. -/
inductive ResolvesTo (ks : KeyTable) : String → HidUsage → Prop where
  | usage {name u} : keysFind ks name = some (.usage u) → ResolvesTo ks name u
  | step {name a u} : keysFind ks name = some (.keyAlias a) → ResolvesTo ks a u →
      ResolvesTo ks name u

/-- The finite alias chains that end at a missing name or an invalid entry. -/
inductive FailsWith (ks : KeyTable) : String → LookupError → Prop where
  | absent {name} : keysFind ks name = none → FailsWith ks name .keyError
  | invalid {name} : keysFind ks name = some .invalid → FailsWith ks name .valueError
  | step {name a e} : keysFind ks name = some (.keyAlias a) → FailsWith ks a e →
      FailsWith ks name e

/-- A value of the codepoint names YAML table: a single string or a list of
strings. -/
inductive NameEntry where
  | one (s : String)
  | many (l : List String)
deriving DecidableEq

/-- The codepoint names table, keyed by character. -/
abbrev CodepointTable := List (Char × NameEntry)

/-- Normalization in _get_key_names: a single string becomes a one-element
list. -/
def normalizeNames : NameEntry → List String
  | .one s => [s]
  | .many l => l

/-- The comprehension filter of _get_key_names: key entries that are
aliases whose target is among the given names. -/
def isAliasInto (names : List String) (e : KeyEntry) : Bool :=
  match e with
  | .keyAlias t => decide (t ∈ names)
  | _ => false

/-- Python str.upper on the locale code, mapped characterwise. -/
def upperString (s : String) : String :=
  String.mk (s.data.map Char.toUpper)

/-- The locale prefixing of _get_key_names. -/
def prefixName (locale : String) (n : String) : String :=
  upperString locale ++ "_" ++ n

/-- Embeds generator._get_key_names. The alias comprehension is evaluated
against the original fragment list before the extension, as in Python. -/
def get_key_names (ks : KeyTable) (cp : CodepointTable) (locale : String) (value : Char) :
    Option (List String) :=
  match (cp.find? fun p => p.1 == value).map Prod.snd with
  | none => none
  | some e =>
    let names := normalizeNames e
    let names := names ++ (ks.filter fun kv => isAliasInto names kv.2).map Prod.fst
    some (names.map (prefixName locale))

/-- One emitted line of the header body. -/
inductive OutLine where
  | defn (name : String) (u : HidUsage)
  | aliasDefn (name : String) (target : String)
deriving DecidableEq

/-- Embeds the per-definition emission loop of write_header: a definition
whose character yields no names (absent, or an empty list, both falsy in
Python) produces no output. -/
def emitDefs (ks : KeyTable) (cp : CodepointTable) (locale : String)
    (defs : List KeyDef) : List OutLine :=
  defs.flatMap fun d =>
    match get_key_names ks cp locale d.2 with
    | some (main :: aliases) =>
        OutLine.defn main d.1 :: aliases.map fun a => OutLine.aliasDefn a main
    | _ => []

section UniqueLemmas

variable {α β : Type _} [DecidableEq β] (key : α → β)

theorem unique_sublist : ∀ (l : List α) (seen : List β), (unique key l seen).Sublist l
  | [], _ => by simp [unique]
  | x :: xs, seen => by
    rw [unique]
    split
    · exact (unique_sublist xs seen).cons x
    · exact (unique_sublist xs _).cons₂ x

theorem mem_of_mem_unique {l : List α} {seen : List β} {x : α}
    (h : x ∈ unique key l seen) : x ∈ l :=
  (unique_sublist key l seen).mem h

theorem unique_key_not_seen {x : α} :
    ∀ {l : List α} {seen : List β}, x ∈ unique key l seen → key x ∉ seen := by
  intro l
  induction l with
  | nil => intro seen h; simp [unique] at h
  | cons y ys ih =>
    intro seen h
    rw [unique] at h
    split at h
    · exact ih h
    · rcases List.mem_cons.mp h with rfl | h
      · assumption
      · intro hx
        exact ih h (List.mem_cons_of_mem _ hx)

theorem nodup_map_key_unique :
    ∀ (l : List α) (seen : List β), ((unique key l seen).map key).Nodup := by
  intro l
  induction l with
  | nil => intro seen; simp [unique]
  | cons y ys ih =>
    intro seen
    rw [unique]
    split
    · exact ih seen
    · rw [List.map_cons, List.nodup_cons]
      refine ⟨?_, ih _⟩
      intro hmem
      rcases List.mem_map.mp hmem with ⟨z, hz, hkz⟩
      exact unique_key_not_seen key hz (hkz ▸ List.mem_cons_self _ _)

theorem unique_eq_self :
    ∀ {l : List α} {seen : List β}, (l.map key).Nodup → (∀ x ∈ l, key x ∉ seen) →
      unique key l seen = l := by
  intro l
  induction l with
  | nil => intro seen _ _; rfl
  | cons y ys ih =>
    intro seen h1 h2
    rw [List.map_cons, List.nodup_cons] at h1
    rw [unique, if_neg (h2 y (List.mem_cons_self _ _))]
    congr 1
    refine ih h1.2 ?_
    intro x hx hk
    rcases List.mem_cons.mp hk with hk | hk
    · exact h1.1 (hk ▸ List.mem_map_of_mem key hx)
    · exact h2 x (List.mem_cons_of_mem _ hx) hk

theorem key_mem_unique {u : β} :
    ∀ {l : List α} {seen : List β}, u ∈ l.map key → u ∉ seen →
      u ∈ (unique key l seen).map key := by
  intro l
  induction l with
  | nil => intro seen h _; simp at h
  | cons y ys ih =>
    intro seen hu hs
    rw [unique]
    split
    · rcases List.mem_map.mp hu with ⟨z, hz, hkz⟩
      rcases List.mem_cons.mp hz with rfl | hz
      · exact absurd (hkz ▸ (by assumption : key z ∈ seen)) hs
      · exact ih (hkz ▸ List.mem_map_of_mem key hz) hs
    · rw [List.map_cons]
      rcases List.mem_map.mp hu with ⟨z, hz, hkz⟩
      rcases List.mem_cons.mp hz with rfl | hz
      · exact hkz ▸ List.mem_cons_self _ _
      · by_cases hku : u = key y
        · exact hku ▸ List.mem_cons_self _ _
        · refine List.mem_cons_of_mem _ (ih (hkz ▸ List.mem_map_of_mem key hz) ?_)
          intro hmem
          rcases List.mem_cons.mp hmem with h | h
          · exact hku h
          · exact hs h

theorem unique_filter_of_seen {u : β} :
    ∀ {l : List α} {seen : List β}, u ∈ seen →
      (unique key l seen).filter (fun x => decide (key x = u)) = [] := by
  intro l
  induction l with
  | nil => intro seen _; rfl
  | cons y ys ih =>
    intro seen hu
    rw [unique]
    split
    · exact ih hu
    · have hky : ¬(key y = u) := fun h => (by assumption : key y ∉ seen) (h ▸ hu)
      rw [List.filter_cons, if_neg (by simp [hky])]
      exact ih (List.mem_cons_of_mem _ hu)

theorem unique_filter_key {u : β} :
    ∀ {l : List α} {seen : List β}, u ∉ seen →
      (unique key l seen).filter (fun x => decide (key x = u)) =
        (l.filter (fun x => decide (key x = u))).take 1 := by
  intro l
  induction l with
  | nil => intro seen _; rfl
  | cons y ys ih =>
    intro seen hu
    rw [unique]
    split
    · have hky : ¬(key y = u) := fun h => hu (h ▸ (by assumption : key y ∈ seen))
      rw [List.filter_cons, if_neg (by simp [hky])]
      exact ih hu
    · by_cases hky : key y = u
      · rw [List.filter_cons, List.filter_cons, if_pos (by simp [hky]), if_pos (by simp [hky])]
        rw [unique_filter_of_seen key (hky ▸ List.mem_cons_self (key y) seen)]
        rfl
      · rw [List.filter_cons, List.filter_cons, if_neg (by simp [hky]), if_neg (by simp [hky])]
        refine ih ?_
        intro hmem
        rcases List.mem_cons.mp hmem with h | h
        · exact hky h.symm
        · exact hu h

theorem unique_congr_seen :
    ∀ {l : List α} {s1 s2 : List β}, (∀ k, k ∈ s1 ↔ k ∈ s2) →
      unique key l s1 = unique key l s2 := by
  intro l
  induction l with
  | nil => intro s1 s2 _; rfl
  | cons y ys ih =>
    intro s1 s2 h
    rw [unique, unique]
    by_cases hy : key y ∈ s1
    · rw [if_pos hy, if_pos ((h _).mp hy)]
      exact ih h
    · rw [if_neg hy, if_neg (fun hc => hy ((h _).mpr hc))]
      congr 1
      refine ih ?_
      intro k
      simp only [List.mem_cons]
      exact or_congr Iff.rfl (h k)

theorem unique_append :
    ∀ {l1 l2 : List α} {seen : List β},
      unique key (l1 ++ l2) seen =
        unique key l1 seen ++ unique key l2 ((unique key l1 seen).map key ++ seen) := by
  intro l1
  induction l1 with
  | nil => intro l2 seen; simp [unique]
  | cons y ys ih =>
    intro l2 seen
    rw [List.cons_append, unique, unique]
    by_cases hy : key y ∈ seen
    · rw [if_pos hy, if_pos hy]
      exact ih
    · rw [if_neg hy, if_neg hy, List.cons_append]
      congr 1
      rw [ih]
      congr 1
      refine unique_congr_seen key ?_
      intro k
      simp only [List.map_cons, List.mem_append, List.mem_cons]
      tauto

end UniqueLemmas

theorem shortest_mods_cons (u x : HidUsage) (xs : List HidUsage) :
    shortest_mods u (x :: xs) =
      shortest_mods (if x.modifiers.card < u.modifiers.card then x else u) xs := rfl

theorem shortest_mods_mem : ∀ (rest : List HidUsage) (u : HidUsage),
    shortest_mods u rest ∈ u :: rest
  | [], u => List.mem_cons_self u []
  | x :: xs, u => by
    rw [shortest_mods_cons]
    rcases List.mem_cons.mp (shortest_mods_mem xs _) with h | h
    · rw [h]
      split
      · exact List.mem_cons_of_mem _ (List.mem_cons_self _ _)
      · exact List.mem_cons_self _ _
    · exact List.mem_cons_of_mem _ (List.mem_cons_of_mem _ h)

theorem shortest_mods_le : ∀ (rest : List HidUsage) (u x : HidUsage), x ∈ u :: rest →
    (shortest_mods u rest).modifiers.card ≤ x.modifiers.card
  | [], u, x, hx => by
    rcases List.mem_cons.mp hx with rfl | hx
    · exact le_rfl
    · simp at hx
  | y :: ys, u, x, hx => by
    rw [shortest_mods_cons]
    set acc := if y.modifiers.card < u.modifiers.card then y else u with hacc
    have haccu : acc.modifiers.card ≤ u.modifiers.card := by
      rw [hacc]; split <;> omega
    have haccy : acc.modifiers.card ≤ y.modifiers.card := by
      rw [hacc]; split <;> omega
    have hself : (shortest_mods acc ys).modifiers.card ≤ acc.modifiers.card :=
      shortest_mods_le ys acc acc (List.mem_cons_self _ _)
    rcases List.mem_cons.mp hx with rfl | hx
    · exact le_trans hself haccu
    · rcases List.mem_cons.mp hx with rfl | hx
      · exact le_trans hself haccy
      · exact shortest_mods_le ys acc x (List.mem_cons_of_mem _ hx)

theorem groupMin_eq_some {defs : List KeyDef} {v : Char} {d : KeyDef}
    (h : groupMin defs v = some d) :
    d.2 = v ∧ d ∈ defs ∧
      ∀ e ∈ defs, e.2 = v → d.1.modifiers.card ≤ e.1.modifiers.card := by
  rw [groupMin] at h
  rcases hm : (defs.filter fun d => decide (d.2 = v)).map Prod.fst with _ | ⟨u, us⟩
  · rw [hm] at h; exact absurd h (by simp)
  · rw [hm] at h
    have hd : d = (shortest_mods u us, v) := by
      have := Option.some.inj h; exact this.symm
    subst hd
    refine ⟨rfl, ?_, ?_⟩
    · have hmem : shortest_mods u us ∈ u :: us := shortest_mods_mem us u
      rw [← hm] at hmem
      rcases List.mem_map.mp hmem with ⟨e, he, hfst⟩
      have he2 := List.mem_filter.mp he
      have hev : e.2 = v := by simpa using he2.2
      have : e = (shortest_mods u us, v) := Prod.ext hfst (by rw [hev])
      exact this ▸ he2.1
    · intro e he hev
      have hef : e ∈ defs.filter fun d => decide (d.2 = v) :=
        List.mem_filter.mpr ⟨he, by simpa using hev⟩
      have : e.1 ∈ u :: us := hm ▸ List.mem_map_of_mem Prod.fst hef
      exact shortest_mods_le us u e.1 this

theorem groupMin_isSome {defs : List KeyDef} {v : Char}
    (h : v ∈ defs.map Prod.snd) : ∃ d, groupMin defs v = some d := by
  rcases List.mem_map.mp h with ⟨e, he, hev⟩
  have hef : e ∈ defs.filter fun d => decide (d.2 = v) :=
    List.mem_filter.mpr ⟨he, by simpa using hev⟩
  have hne : (defs.filter fun d => decide (d.2 = v)).map Prod.fst ≠ [] :=
    List.ne_nil_of_mem (List.mem_map_of_mem Prod.fst hef)
  rw [groupMin]
  rcases hm : (defs.filter fun d => decide (d.2 = v)).map Prod.fst with _ | ⟨u, us⟩
  · exact absurd hm hne
  · rw [hm]
    exact ⟨_, rfl⟩

theorem mem_of_mem_dedupe_same_value {defs : List KeyDef} {d : KeyDef}
    (h : d ∈ dedupe_same_value defs) : d ∈ defs := by
  rw [dedupe_same_value] at h
  rcases List.mem_filterMap.mp h with ⟨v, _, hd⟩
  exact (groupMin_eq_some hd).2.1

theorem dedupe_same_value_min {defs : List KeyDef} {d : KeyDef}
    (h : d ∈ dedupe_same_value defs) :
    ∀ e ∈ defs, e.2 = d.2 → d.1.modifiers.card ≤ e.1.modifiers.card := by
  rw [dedupe_same_value] at h
  rcases List.mem_filterMap.mp h with ⟨v, _, hd⟩
  have hs := groupMin_eq_some hd
  intro e he hev
  exact hs.2.2 e he (hs.1 ▸ hev)

theorem filterMap_groupMin_map_snd (defs : List KeyDef) :
    ∀ (vs : List Char), (∀ v ∈ vs, v ∈ defs.map Prod.snd) →
      (vs.filterMap (groupMin defs)).map Prod.snd = vs := by
  intro vs
  induction vs with
  | nil => intro _; rfl
  | cons v vs ih =>
    intro h
    rcases groupMin_isSome (h v (List.mem_cons_self _ _)) with ⟨d, hd⟩
    rw [List.filterMap_cons, hd, List.map_cons, (groupMin_eq_some hd).1]
    rw [ih fun w hw => h w (List.mem_cons_of_mem _ hw)]

theorem dedupe_same_value_map_snd (defs : List KeyDef) :
    (dedupe_same_value defs).map Prod.snd = unique id (defs.map Prod.snd) [] := by
  rw [dedupe_same_value]
  exact filterMap_groupMin_map_snd defs _ fun v hv => mem_of_mem_unique id hv

theorem filterMap_groupMin_eq_self :
    ∀ {defs : List KeyDef}, (defs.map Prod.snd).Nodup →
      (defs.map Prod.snd).filterMap (groupMin defs) = defs := by
  intro defs
  induction defs with
  | nil => intro _; rfl
  | cons d t ih =>
    intro h
    rw [List.map_cons, List.nodup_cons] at h
    rw [List.map_cons, List.filterMap_cons]
    have hfilter : ((d :: t).filter fun e => decide (e.2 = d.2)) = [d] := by
      rw [List.filter_cons, if_pos (by simp)]
      rw [List.filter_eq_nil_iff.mpr]
      intro e he
      simp only [decide_eq_true_eq]
      intro hev
      exact h.1 (hev ▸ List.mem_map_of_mem Prod.snd he)
    have hgm : groupMin (d :: t) d.2 = some d := by
      rw [groupMin, hfilter]
      simp [shortest_mods]
    rw [hgm]
    show d :: (t.map Prod.snd).filterMap (groupMin (d :: t)) = d :: t
    congr 1
    have hcongr : (t.map Prod.snd).filterMap (groupMin (d :: t)) =
        (t.map Prod.snd).filterMap (groupMin t) := by
      refine List.filterMap_congr ?_
      intro v hv
      have hvd : ¬(d.2 = v) := fun hc => h.1 (hc ▸ hv)
      rw [groupMin, groupMin, List.filter_cons, if_neg (by simp [hvd])]
    rw [hcongr]
    exact ih h.2

theorem dedupe_same_value_eq_self {defs : List KeyDef}
    (h : (defs.map Prod.snd).Nodup) : dedupe_same_value defs = defs := by
  rw [dedupe_same_value, unique_eq_self id (by rwa [List.map_id]) (by simp)]
  exact filterMap_groupMin_eq_self h

theorem dedupe_same_value_shape {B M : List KeyDef}
    (hB : ∀ d ∈ B, d.1.modifiers = ∅) (hM : ∀ d ∈ M, d.1.modifiers ≠ ∅) :
    ∃ Bo Mo, dedupe_same_value (B ++ M) = Bo ++ Mo ∧
      (∀ d ∈ Bo, d.1.modifiers = ∅) ∧ (∀ d ∈ Mo, d.1.modifiers ≠ ∅) := by
  rw [dedupe_same_value, List.map_append, unique_append, List.filterMap_append]
  refine ⟨_, _, rfl, ?_, ?_⟩
  · intro d hd
    rcases List.mem_filterMap.mp hd with ⟨v, hv, hgm⟩
    have hvB : v ∈ B.map Prod.snd := mem_of_mem_unique id hv
    rcases List.mem_map.mp hvB with ⟨b, hb, hbv⟩
    have hgs := groupMin_eq_some hgm
    have hcard := hgs.2.2 b (List.mem_append_left _ hb) hbv
    rw [hB b hb, Finset.card_empty, Nat.le_zero, Finset.card_eq_zero] at hcard
    exact hcard
  · intro d hd
    rcases List.mem_filterMap.mp hd with ⟨v, hv, hgm⟩
    have hnotB : v ∉ B.map Prod.snd := by
      intro hvB
      refine unique_key_not_seen id hv ?_
      refine List.mem_append_left _ ?_
      exact key_mem_unique id (by rwa [List.map_id]) (List.not_mem_nil v)
    have hgs := groupMin_eq_some hgm
    rcases List.mem_append.mp hgs.2.1 with hdB | hdM
    · exact absurd (by rw [← hgs.1]; exact List.mem_map_of_mem Prod.snd hdB) hnotB
    · exact hM d hdM

theorem nodup_map_snd_dedupe_same_value (defs : List KeyDef) :
    ((dedupe_same_value defs).map Prod.snd).Nodup := by
  rw [dedupe_same_value_map_snd]
  have := nodup_map_key_unique id (defs.map Prod.snd) []
  rwa [List.map_id] at this

theorem mem_map_snd_dedupe_same_value {defs : List KeyDef} {v : Char} :
    v ∈ (dedupe_same_value defs).map Prod.snd ↔ v ∈ defs.map Prod.snd := by
  rw [dedupe_same_value_map_snd]
  constructor
  · exact fun h => mem_of_mem_unique id h
  · intro h
    have := key_mem_unique id (u := v) (by rwa [List.map_id]) (List.not_mem_nil v)
    rwa [List.map_id] at this

theorem nodup_fst_dedupe_same_value {defs : List KeyDef}
    (h : (defs.map Prod.fst).Nodup) :
    ((dedupe_same_value defs).map Prod.fst).Nodup := by
  have hnd : (dedupe_same_value defs).Nodup :=
    (nodup_map_snd_dedupe_same_value defs).of_map _
  rw [List.nodup_map_iff_inj_on hnd]
  intro x hx y hy hxy
  have hdefs : defs.Nodup := h.of_map _
  exact (List.nodup_map_iff_inj_on hdefs).mp h x (mem_of_mem_dedupe_same_value hx) y
    (mem_of_mem_dedupe_same_value hy) hxy

theorem dedupe_uppercase_sublist {σ : Type} [DecidableEq σ] (fold : Char → σ)
    (defs : List KeyDef) :
    (dedupe_uppercase fold defs).Sublist
      (defs.filter isBase ++ defs.filter fun d => !isBase d) :=
  List.Sublist.append (List.Sublist.refl _) (List.filter_sublist _)

theorem nodup_fst_dedupe_uppercase {σ : Type} [DecidableEq σ] (fold : Char → σ)
    {defs : List KeyDef} (h : (defs.map Prod.fst).Nodup) :
    ((dedupe_uppercase fold defs).map Prod.fst).Nodup := by
  have hperm := List.filter_append_perm isBase defs
  have h2 : (((defs.filter isBase) ++ (defs.filter fun d => !isBase d)).map Prod.fst).Nodup :=
    ((hperm.map Prod.fst).nodup_iff).mpr h
  exact h2.sublist ((dedupe_uppercase_sublist fold defs).map Prod.fst)

theorem pipeline_fst_nodup {σ κ : Type} [DecidableEq σ] [LinearOrder κ]
    (fold : Char → σ) (low : Char → κ) (defs : List KeyDef) :
    ((get_key_definitions fold low defs).map Prod.fst).Nodup := by
  have h1 : ((dedupe_same_usage defs).map Prod.fst).Nodup :=
    nodup_map_key_unique Prod.fst defs []
  have h3 := nodup_fst_dedupe_same_value (nodup_fst_dedupe_uppercase fold h1)
  rw [get_key_definitions, sortKeyDefs]
  exact ((List.perm_insertionSort (leKey low) _).map Prod.fst).nodup_iff.mpr h3

theorem pipeline_snd_nodup {σ κ : Type} [DecidableEq σ] [LinearOrder κ]
    (fold : Char → σ) (low : Char → κ) (defs : List KeyDef) :
    ((get_key_definitions fold low defs).map Prod.snd).Nodup := by
  rw [get_key_definitions, sortKeyDefs]
  exact ((List.perm_insertionSort (leKey low) _).map Prod.snd).nodup_iff.mpr
    (nodup_map_snd_dedupe_same_value _)

theorem filter_charKey_orderedInsert {κ : Type} [LinearOrder κ] (low : Char → κ)
    (c : κ) (a : KeyDef) :
    ∀ l : List KeyDef,
      (l.orderedInsert (leKey low) a).filter (fun d => decide (charKey low d = c)) =
        if charKey low a = c then a :: l.filter (fun d => decide (charKey low d = c))
        else l.filter (fun d => decide (charKey low d = c)) := by
  intro l
  induction l with
  | nil =>
    show ([a].filter fun d => decide (charKey low d = c)) = _
    rw [List.filter_cons]
    by_cases hac : charKey low a = c
    · rw [if_pos (by simp [hac]), if_pos hac]
    · rw [if_neg (by simp [hac]), if_neg hac]
  | cons b t ih =>
    rw [List.orderedInsert]
    by_cases hab : leKey low a b
    · rw [if_pos hab]
      rw [List.filter_cons]
      by_cases hac : charKey low a = c
      · rw [if_pos (by simp [hac]), if_pos hac]
      · rw [if_neg (by simp [hac]), if_neg hac]
    · rw [if_neg hab]
      have hba : low b.2 < low a.2 := not_le.mp hab
      rw [List.filter_cons, ih, List.filter_cons]
      by_cases hac : charKey low a = c
      · by_cases hbc : charKey low b = c
        · exfalso
          rw [charKey] at hac hbc
          rw [hac, hbc] at hba
          exact lt_irrefl c hba
        · rw [if_neg (by simp [hbc]), if_pos hac, if_pos hac, if_neg (by simp [hbc])]
      · by_cases hbc : charKey low b = c
        · rw [if_pos (by simp [hbc]), if_neg hac, if_neg hac, if_pos (by simp [hbc])]
        · rw [if_neg (by simp [hbc]), if_neg hac, if_neg hac, if_neg (by simp [hbc])]

theorem filter_charKey_insertionSort {κ : Type} [LinearOrder κ] (low : Char → κ)
    (c : κ) :
    ∀ l : List KeyDef,
      (List.insertionSort (leKey low) l).filter (fun d => decide (charKey low d = c)) =
        l.filter (fun d => decide (charKey low d = c)) := by
  intro l
  induction l with
  | nil => rfl
  | cons a t ih =>
    rw [List.insertionSort, filter_charKey_orderedInsert, ih, List.filter_cons]
    by_cases hac : charKey low a = c
    · rw [if_pos hac, if_pos (by simp [hac])]
    · rw [if_neg hac, if_neg (by simp [hac])]

theorem sorted_eq_of_filter_charKey_eq {κ : Type} [LinearOrder κ] {low : Char → κ} :
    ∀ {l1 l2 : List KeyDef}, l1.Sorted (leKey low) → l2.Sorted (leKey low) →
      (∀ c, l1.filter (fun d => decide (charKey low d = c)) =
        l2.filter (fun d => decide (charKey low d = c))) → l1 = l2 := by
  intro l1
  induction l1 with
  | nil =>
    intro l2 _ _ h
    cases l2 with
    | nil => rfl
    | cons b t2 =>
      exfalso
      have hb := h (charKey low b)
      rw [List.filter_nil, List.filter_cons, if_pos (by simp)] at hb
      exact List.cons_ne_nil _ _ hb.symm
  | cons a t1 ih =>
    intro l2 h1 h2 h
    cases l2 with
    | nil =>
      exfalso
      have ha := h (charKey low a)
      rw [List.filter_cons, if_pos (by simp), List.filter_nil] at ha
      exact List.cons_ne_nil _ _ ha
    | cons b t2 =>
      have hminl2 := List.rel_of_sorted_cons h2
      have hminl1 := List.rel_of_sorted_cons h1
      have hba : low b.2 ≤ low a.2 := by
        have hf := h (charKey low a)
        rw [List.filter_cons, if_pos (by simp)] at hf
        have hmem : a ∈ (b :: t2).filter fun d => decide (charKey low d = charKey low a) := by
          rw [← hf]
          exact List.mem_cons_self _ _
        rcases List.mem_cons.mp (List.mem_filter.mp hmem).1 with heq | hx
        · rw [heq]
        · exact hminl2 a hx
      have hab : low a.2 ≤ low b.2 := by
        have hf := h (charKey low b)
        nth_rewrite 2 [List.filter_cons] at hf
        rw [if_pos (by simp)] at hf
        have hmem : b ∈ (a :: t1).filter fun d => decide (charKey low d = charKey low b) := by
          rw [hf]
          exact List.mem_cons_self _ _
        rcases List.mem_cons.mp (List.mem_filter.mp hmem).1 with heq | hx
        · rw [heq]
        · exact hminl1 b hx
      have hkab : charKey low a = charKey low b := le_antisymm hab hba
      have hf := h (charKey low a)
      rw [List.filter_cons, List.filter_cons, if_pos (by simp),
        if_pos (by simp [hkab.symm])] at hf
      obtain ⟨rfl, htail⟩ := List.cons.inj hf
      congr 1
      refine ih h1.of_cons h2.of_cons ?_
      intro c
      by_cases hc : c = charKey low a
      · rw [hc]
        exact htail
      · have hfc := h c
        rw [List.filter_cons, List.filter_cons, if_neg (by simp [Ne.symm hc]),
          if_neg (by simp [Ne.symm hc])] at hfc
        exact hfc

theorem filter_comm_keydef (p q : KeyDef → Bool) (l : List KeyDef) :
    (l.filter p).filter q = (l.filter q).filter p := by
  rw [List.filter_filter, List.filter_filter]
  exact List.filter_congr fun x _ => Bool.and_comm _ _

/-- If a sorted list o arose by sorting a list in which every base
definition precedes every modified one, then re-sorting the base/modified
partition of o gives back o: the stability argument behind idempotence. -/
theorem insertionSort_filter_partition_eq {κ : Type} [LinearOrder κ]
    (low : Char → κ) {pre Bo Mo : List KeyDef}
    (hpre : pre = Bo ++ Mo)
    (hBo : ∀ d ∈ Bo, isBase d = true) (hMo : ∀ d ∈ Mo, isBase d = false) :
    List.insertionSort (leKey low)
        ((List.insertionSort (leKey low) pre).filter isBase ++
          (List.insertionSort (leKey low) pre).filter fun d => !isBase d) =
      List.insertionSort (leKey low) pre := by
  refine sorted_eq_of_filter_charKey_eq (List.sorted_insertionSort (leKey low) _)
    (List.sorted_insertionSort (leKey low) _) ?_
  intro c
  rw [filter_charKey_insertionSort, List.filter_append]
  rw [filter_comm_keydef isBase (fun d => decide (charKey low d = c)),
    filter_comm_keydef (fun d => !isBase d) (fun d => decide (charKey low d = c))]
  rw [filter_charKey_insertionSort, hpre, List.filter_append]
  have hA : (Bo.filter fun d => decide (charKey low d = c)).filter isBase =
      Bo.filter fun d => decide (charKey low d = c) :=
    List.filter_eq_self.mpr fun d hd => hBo d (List.mem_filter.mp hd).1
  have hB : (Mo.filter fun d => decide (charKey low d = c)).filter isBase = [] :=
    List.filter_eq_nil_iff.mpr fun d hd => by simp [hMo d (List.mem_filter.mp hd).1]
  have hC : (Bo.filter fun d => decide (charKey low d = c)).filter (fun d => !isBase d) = [] :=
    List.filter_eq_nil_iff.mpr fun d hd => by simp [hBo d (List.mem_filter.mp hd).1]
  have hD : (Mo.filter fun d => decide (charKey low d = c)).filter (fun d => !isBase d) =
      Mo.filter fun d => decide (charKey low d = c) :=
    List.filter_eq_self.mpr fun d hd => by simp [hMo d (List.mem_filter.mp hd).1]
  rw [List.filter_append, List.filter_append, hA, hB, hC, hD, List.append_nil,
    List.nil_append]

theorem dedupe_uppercase_parts {σ : Type} [DecidableEq σ] (fold : Char → σ)
    (defs : List KeyDef) :
    dedupe_uppercase fold defs =
      defs.filter isBase ++
        (defs.filter fun d => !isBase d).filter
          (fun d => !is_duplicate_uppercase fold (defs.filter isBase) d) := rfl

/-- Core of the idempotence claim, phrased on the unsorted pipeline and
holding for every choice of the external casefold and lower functions. -/
theorem pipeline_idem {σ κ : Type} [DecidableEq σ] [LinearOrder κ]
    (fold : Char → σ) (low : Char → κ) (defs : List KeyDef) :
    get_key_definitions fold low (get_key_definitions fold low defs) =
      get_key_definitions fold low defs := by
  have hBBbase : ∀ d ∈ (dedupe_same_usage defs).filter isBase, d.1.modifiers = ∅ := by
    intro d hd
    have := (List.mem_filter.mp hd).2
    simpa [isBase] using this
  have hMM2mod : ∀ d ∈ ((dedupe_same_usage defs).filter fun d => !isBase d).filter
      (fun d => !is_duplicate_uppercase fold ((dedupe_same_usage defs).filter isBase) d),
      d.1.modifiers ≠ ∅ := by
    intro d hd
    have h2 := (List.mem_filter.mp (List.mem_filter.mp hd).1).2
    simpa [isBase] using h2
  obtain ⟨Bo, Mo, hpreshape, hBo, hMo⟩ := dedupe_same_value_shape hBBbase hMM2mod
  have hpre : dedupe_same_value (dedupe_uppercase fold (dedupe_same_usage defs)) = Bo ++ Mo := by
    rw [dedupe_uppercase_parts]
    exact hpreshape
  have ho : get_key_definitions fold low defs =
      List.insertionSort (leKey low)
        (dedupe_same_value (dedupe_uppercase fold (dedupe_same_usage defs))) :=
    rfl
  -- membership of pipeline output in the pass-2 output
  have homem : ∀ d, d ∈ get_key_definitions fold low defs →
      d ∈ dedupe_uppercase fold (dedupe_same_usage defs) := by
    intro d hd
    rw [ho] at hd
    exact mem_of_mem_dedupe_same_value ((List.mem_insertionSort (leKey low)).mp hd)
  have hobase : ∀ d, d ∈ get_key_definitions fold low defs → isBase d = true →
      d ∈ (dedupe_same_usage defs).filter isBase := by
    intro d hd hb
    rcases List.mem_append.mp (dedupe_uppercase_parts fold _ ▸ homem d hd) with h | h
    · exact h
    · exfalso
      have hmod := hMM2mod d h
      rw [isBase, decide_eq_true_eq] at hb
      exact hmod hb
  have homod : ∀ d, d ∈ get_key_definitions fold low defs → isBase d = false →
      is_duplicate_uppercase fold ((dedupe_same_usage defs).filter isBase) d = false := by
    intro d hd hb
    rcases List.mem_append.mp (dedupe_uppercase_parts fold _ ▸ homem d hd) with h | h
    · exfalso
      have := (List.mem_filter.mp h).2
      rw [hb] at this
      exact Bool.false_ne_true this
    · have := (List.mem_filter.mp h).2
      simpa using this
  -- no modified survivor is a duplicate with respect to the surviving bases
  have hnodup2 : ∀ d ∈ (get_key_definitions fold low defs).filter (fun d => !isBase d),
      is_duplicate_uppercase fold ((get_key_definitions fold low defs).filter isBase) d
        = false := by
    intro d hd
    have hdo := List.mem_filter.mp hd
    have hdb : isBase d = false := by
      have := hdo.2
      simpa using this
    have hnd := homod d hdo.1 hdb
    rw [is_duplicate_uppercase] at hnd ⊢
    rcases Bool.and_eq_false_iff.mp hnd with h | h
    · rw [h, Bool.false_and]
    · have hany : ((get_key_definitions fold low defs).filter isBase).any
          (fun b => decide (fold d.2 = fold b.2 ∧
            remove_shift d.1.modifiers = b.1.modifiers)) = false := by
        rw [List.any_eq_false] at h ⊢
        intro b hb
        exact h b (hobase b (List.mem_filter.mp hb).1 (List.mem_filter.mp hb).2)
      rw [hany, Bool.and_false]
  -- pass 1 is the identity on the pipeline output
  have hp1 : dedupe_same_usage (get_key_definitions fold low defs) =
      get_key_definitions fold low defs := by
    rw [dedupe_same_usage]
    exact unique_eq_self Prod.fst (pipeline_fst_nodup fold low defs) (by simp)
  -- pass 2 only re-partitions the pipeline output
  have hp2 : dedupe_uppercase fold (get_key_definitions fold low defs) =
      (get_key_definitions fold low defs).filter isBase ++
        (get_key_definitions fold low defs).filter fun d => !isBase d := by
    rw [dedupe_uppercase_parts]
    congr 1
    refine List.filter_eq_self.mpr ?_
    intro d hd
    rw [hnodup2 d hd]
    rfl
  -- pass 3 is the identity on the re-partitioned output
  have hvalnodup : (((get_key_definitions fold low defs).filter isBase ++
      (get_key_definitions fold low defs).filter fun d => !isBase d).map Prod.snd).Nodup :=
    ((List.filter_append_perm isBase _).map Prod.snd).nodup_iff.mpr
      (pipeline_snd_nodup fold low defs)
  show sortKeyDefs low (dedupe_same_value (dedupe_uppercase fold (dedupe_same_usage
    (get_key_definitions fold low defs)))) = get_key_definitions fold low defs
  rw [hp1, hp2, dedupe_same_value_eq_self hvalnodup, sortKeyDefs]
  have := insertionSort_filter_partition_eq low hpre
    (fun d hd => by simp [isBase, hBo d hd])
    (fun d hd => by simp [isBase, hMo d hd])
  rw [ho]
  exact this

theorem mem_dedupe_uppercase {σ : Type} [DecidableEq σ] {fold : Char → σ}
    {defs : List KeyDef} {d : KeyDef} :
    d ∈ dedupe_uppercase fold defs ↔
      (d ∈ defs ∧ isBase d = true) ∨
      (d ∈ defs ∧ isBase d = false ∧
        is_duplicate_uppercase fold (defs.filter isBase) d = false) := by
  rw [dedupe_uppercase_parts, List.mem_append, List.mem_filter, List.mem_filter,
    List.mem_filter]
  simp only [Bool.not_eq_true', and_assoc]

theorem is_duplicate_uppercase_true_iff {σ : Type} [DecidableEq σ] {fold : Char → σ}
    {defs : List KeyDef} {d : KeyDef} :
    is_duplicate_uppercase fold (defs.filter isBase) d = true ↔
      (has_shift d.1.modifiers ∧ ∃ b ∈ defs, b.1.modifiers = ∅ ∧
        fold d.2 = fold b.2 ∧ remove_shift d.1.modifiers = b.1.modifiers) := by
  rw [is_duplicate_uppercase, Bool.and_eq_true, List.any_eq_true]
  simp only [List.mem_filter, isBase, decide_eq_true_eq]
  constructor
  · rintro ⟨h1, b, ⟨hb, hbm⟩, hcond⟩
    exact ⟨h1, b, hb, hbm, hcond⟩
  · rintro ⟨h1, b, hb, hbm, hcond⟩
    exact ⟨h1, b, ⟨hb, hbm⟩, hcond⟩

/-- C1 counterexample: with base (U0, 'a') where U0 = (no mods, page 7, id 4)
and modified (U1 + LShift, 'A') where U1 = (no mods, page 7, id 5) differs
from U0 in its id, the uppercase-shift pass still removes the modified
definition: the pass compares only modifier sets, never page or id, so the
claim that both survive whenever U1 differs from U0 is false. -/
theorem C1_counterexample :
    ((⟨∅, 7, 5⟩ : HidUsage) ≠ (⟨∅, 7, 4⟩ : HidUsage)) ∧
    dedupe_uppercase foldDemo
        [((⟨∅, 7, 4⟩ : HidUsage), 'a'), ((⟨{Modifier.lshift}, 7, 5⟩ : HidUsage), 'A')] =
      [((⟨∅, 7, 4⟩ : HidUsage), 'a')] :=
  ⟨by decide, by decide⟩

/-- C1 (amended): given a base definition (U0, 'a') with empty modifier set
and a modified definition (U1 + Shift, 'A'), both survive the
uppercase-shift pass exactly when U1's modifier set with shift removed
differs from U0's (empty) modifier set: if it differs they both survive,
and if it is equal the modified definition is removed (its characters
being casefold equal, as 'A' and 'a' are in Python), whatever U1's page
and id are. Stated for every casefold function. -/
theorem C1_uppercase_negative_amended {σ : Type} [DecidableEq σ] (fold : Char → σ)
    (u0 u1 : HidUsage)
    (h0 : u0.modifiers = ∅) (hshift : has_shift u1.modifiers) :
    (remove_shift u1.modifiers ≠ u0.modifiers →
      dedupe_uppercase fold [(u0, 'a'), (u1, 'A')] = [(u0, 'a'), (u1, 'A')]) ∧
    (remove_shift u1.modifiers = u0.modifiers → fold 'A' = fold 'a' →
      dedupe_uppercase fold [(u0, 'a'), (u1, 'A')] = [(u0, 'a')]) := by
  have h1 : u1.modifiers ≠ ∅ := by
    rcases hshift with h | h
    · exact Finset.ne_empty_of_mem h
    · exact Finset.ne_empty_of_mem h
  have hfb : ([(u0, 'a'), (u1, 'A')].filter isBase) = [(u0, 'a')] := by
    rw [List.filter_cons, if_pos (by simp [isBase, h0]), List.filter_cons,
      if_neg (by simp [isBase, h1]), List.filter_nil]
  have hfm : ([(u0, 'a'), (u1, 'A')].filter fun d => !isBase d) = [(u1, 'A')] := by
    rw [List.filter_cons, if_neg (by simp [isBase, h0]), List.filter_cons,
      if_pos (by simp [isBase, h1]), List.filter_nil]
  constructor
  · intro hmods
    rw [dedupe_uppercase_parts, hfb, hfm]
    rw [List.filter_cons, if_pos ?_, List.filter_nil]
    · rfl
    · simp only [is_duplicate_uppercase, List.any_cons, List.any_nil, Bool.or_false,
        Bool.not_eq_true', Bool.and_eq_false_iff]
      right
      refine decide_eq_false ?_
      rintro ⟨-, hc⟩
      exact hmods hc
  · intro hmods hfold
    rw [dedupe_uppercase_parts, hfb, hfm]
    rw [List.filter_cons, if_neg ?_, List.filter_nil, List.append_nil]
    have hdup : is_duplicate_uppercase fold [(u0, 'a')] (u1, 'A') = true := by
      simp only [is_duplicate_uppercase, List.any_cons, List.any_nil, Bool.or_false,
        Bool.and_eq_true, decide_eq_true_eq]
      exact ⟨hshift, hfold, hmods⟩
    simp [hdup]

/-- C1 amended witness at concrete inputs: with U1 = (LShift and LAlt, 7, 5)
the shift-removed modifiers (LAlt) differ from U0's empty set and both
definitions survive; with U1 = (LShift only, 7, 5), differing from
U0 = (no mods, 7, 4) only in its id, the modified definition is removed. -/
theorem C1_uppercase_negative_amended_witness :
    dedupe_uppercase foldDemo
        [((⟨∅, 7, 4⟩ : HidUsage), 'a'),
          ((⟨{Modifier.lshift, Modifier.lalt}, 7, 5⟩ : HidUsage), 'A')] =
      [((⟨∅, 7, 4⟩ : HidUsage), 'a'),
        ((⟨{Modifier.lshift, Modifier.lalt}, 7, 5⟩ : HidUsage), 'A')] ∧
    dedupe_uppercase foldDemo
        [((⟨∅, 7, 4⟩ : HidUsage), 'a'), ((⟨{Modifier.lshift}, 7, 5⟩ : HidUsage), 'A')] =
      [((⟨∅, 7, 4⟩ : HidUsage), 'a')] :=
  ⟨(C1_uppercase_negative_amended foldDemo _ _ (by decide) (by decide)).1 (by decide),
    (C1_uppercase_negative_amended foldDemo _ _ (by decide) (by decide)).2 (by decide)
      (by decide)⟩

/-- C2: for every raw definition list, after the three dedupe passes and
the final sort no two surviving definitions share a usage code and no two
share a character. The external casefold and lower functions are
abstracted as parameters, so the invariant holds in particular for
Python's str.casefold and str.lower. -/
theorem C2_final_invariant {σ κ : Type} [DecidableEq σ] [LinearOrder κ]
    (fold : Char → σ) (low : Char → κ) (defs : List KeyDef) :
    ((get_key_definitions fold low defs).map Prod.fst).Nodup ∧
      ((get_key_definitions fold low defs).map Prod.snd).Nodup :=
  ⟨pipeline_fst_nodup fold low defs, pipeline_snd_nodup fold low defs⟩

/-- C3: running the full dedupe pipeline (three passes plus the
case-insensitive sort) on its own output returns that output unchanged,
for every choice of the external casefold and lower functions, in
particular for Python's. -/
theorem C3_pipeline_idempotent {σ κ : Type} [DecidableEq σ] [LinearOrder κ]
    (fold : Char → σ) (low : Char → κ) (defs : List KeyDef) :
    get_key_definitions fold low (get_key_definitions fold low defs) =
      get_key_definitions fold low defs :=
  pipeline_idem fold low defs

/-- C4: the same-usage pass keeps, for every usage code, exactly the first
definition with that usage code (the survivors with usage u are the first
element of the input's u-entries), the result is a subsequence of the
input, and on [(U, 'a'), (U, 'b')] only (U, 'a') remains. -/
theorem C4_same_usage_keeps_first (defs : List KeyDef) :
    (dedupe_same_usage defs).Sublist defs ∧
    (∀ u : HidUsage,
      (dedupe_same_usage defs).filter (fun d => decide (d.1 = u)) =
        (defs.filter fun d => decide (d.1 = u)).take 1) ∧
    (∀ U : HidUsage, dedupe_same_usage [(U, 'a'), (U, 'b')] = [(U, 'a')]) := by
  refine ⟨unique_sublist Prod.fst defs [], ?_, ?_⟩
  · intro u
    exact unique_filter_key Prod.fst (List.not_mem_nil u)
  · intro U
    simp [dedupe_same_usage, unique]

/-- C5: the uppercase-shift pass discards a definition exactly when it has
a shift modifier and some base definition matches it after case folding
and shift removal; every base (empty-modifier) definition survives. The
casefold function is abstracted as a parameter, so the characterization
holds in particular for Python's str.casefold (which folds the uppercase
twin of any cased letter, ASCII or not, onto its base letter). -/
theorem C5_uppercase_pass_characterization {σ : Type} [DecidableEq σ]
    (fold : Char → σ) (defs : List KeyDef) :
    (∀ d ∈ defs, d.1.modifiers = ∅ → d ∈ dedupe_uppercase fold defs) ∧
    (∀ d ∈ defs, d.1.modifiers ≠ ∅ →
      (d ∈ dedupe_uppercase fold defs ↔
        ¬(has_shift d.1.modifiers ∧ ∃ b ∈ defs, b.1.modifiers = ∅ ∧
          fold d.2 = fold b.2 ∧
          remove_shift d.1.modifiers = b.1.modifiers))) := by
  constructor
  · intro d hd hm
    exact mem_dedupe_uppercase.mpr (Or.inl ⟨hd, by simp [isBase, hm]⟩)
  · intro d hd hm
    have hbase : isBase d = false := by simp [isBase, hm]
    rw [mem_dedupe_uppercase]
    constructor
    · rintro (⟨_, hb⟩ | ⟨_, _, hdup⟩)
      · rw [hbase] at hb
        exact absurd hb (by simp)
      · intro hcond
        rw [is_duplicate_uppercase_true_iff.mpr hcond] at hdup
        exact absurd hdup (by simp)
    · intro hcond
      refine Or.inr ⟨hd, hbase, ?_⟩
      rcases h : is_duplicate_uppercase fold (defs.filter isBase) d with _ | _
      · rfl
      · exact absurd (is_duplicate_uppercase_true_iff.mp h) hcond

/-- C5 witness at the non-ASCII pair the program processes: with a casefold
that folds A-umlaut onto a-umlaut (as Python's does), the base a-umlaut
definition survives and the shifted A-umlaut definition is discarded. -/
theorem C5_uppercase_pass_witness :
    ((⟨∅, 7, 4⟩ : HidUsage), 'ä') ∈
      dedupe_uppercase foldDemo
        [((⟨∅, 7, 4⟩ : HidUsage), 'ä'), ((⟨{Modifier.lshift}, 7, 4⟩ : HidUsage), 'Ä')] ∧
    ¬(((⟨{Modifier.lshift}, 7, 4⟩ : HidUsage), 'Ä') ∈
      dedupe_uppercase foldDemo
        [((⟨∅, 7, 4⟩ : HidUsage), 'ä'), ((⟨{Modifier.lshift}, 7, 4⟩ : HidUsage), 'Ä')]) :=
  ⟨(C5_uppercase_pass_characterization foldDemo _).1 _ (by decide) (by decide),
    fun hmem =>
      (((C5_uppercase_pass_characterization foldDemo _).2 _ (by decide) (by decide)).mp
        hmem) (by decide)⟩

/-- C6: the same-character pass keeps exactly one definition per character
occurring in its input, every kept definition comes from the input and has
minimal modifier-set cardinality among the input definitions with its
character, and on [(U0, 'x'), (U0 plus LAlt, 'x')] only (U0, 'x') remains. -/
theorem C6_same_value_pass (defs : List KeyDef) :
    ((dedupe_same_value defs).map Prod.snd).Nodup ∧
    (∀ v : Char, v ∈ (dedupe_same_value defs).map Prod.snd ↔ v ∈ defs.map Prod.snd) ∧
    (∀ d ∈ dedupe_same_value defs, d ∈ defs ∧
      ∀ e ∈ defs, e.2 = d.2 → d.1.modifiers.card ≤ e.1.modifiers.card) ∧
    dedupe_same_value
        [((⟨∅, 7, 4⟩ : HidUsage), 'x'), ((⟨{Modifier.lalt}, 7, 4⟩ : HidUsage), 'x')] =
      [((⟨∅, 7, 4⟩ : HidUsage), 'x')] := by
  refine ⟨nodup_map_snd_dedupe_same_value defs, fun v => mem_map_snd_dedupe_same_value,
    ?_, by decide⟩
  intro d hd
  exact ⟨mem_of_mem_dedupe_same_value hd, dedupe_same_value_min hd⟩

/-- C6 witness: in the list [(no mods, 'x'), (LAlt, 'x')] the survivor
(no mods, 'x') is a member of the input with minimal modifier count. -/
theorem C6_same_value_witness :
    ((⟨∅, 7, 4⟩ : HidUsage), 'x') ∈
        [((⟨∅, 7, 4⟩ : HidUsage), 'x'), ((⟨{Modifier.lalt}, 7, 4⟩ : HidUsage), 'x')] ∧
      (⟨∅, 7, 4⟩ : HidUsage).modifiers.card ≤ ({Modifier.lalt} : Finset Modifier).card :=
  ⟨((C6_same_value_pass
      [((⟨∅, 7, 4⟩ : HidUsage), 'x'), ((⟨{Modifier.lalt}, 7, 4⟩ : HidUsage), 'x')]).2.2.1
        ((⟨∅, 7, 4⟩ : HidUsage), 'x') (by decide)).1,
    ((C6_same_value_pass
      [((⟨∅, 7, 4⟩ : HidUsage), 'x'), ((⟨{Modifier.lalt}, 7, 4⟩ : HidUsage), 'x')]).2.2.1
        ((⟨∅, 7, 4⟩ : HidUsage), 'x') (by decide)).2
      ((⟨{Modifier.lalt}, 7, 4⟩ : HidUsage), 'x') (by decide) (by decide)⟩

/-- C7: the pipeline output is the three-pass survivor set sorted by the
case-insensitive character key (not by usage code): it is sorted under
leKey low, is a permutation of the pass-3 output, preserves the relative
order inside every character class of the key (stability), for every
choice of the external lower function; concretely, with a lower function
that behaves as Python's on the characters involved, b, A, a, C come out
as A, a (their pre-sort order), then b, then C, and the equal-key
non-ASCII pair a-umlaut, A-umlaut keeps its pre-sort order. -/
theorem C7_sort_case_insensitive {σ κ : Type} [DecidableEq σ] [LinearOrder κ]
    (fold : Char → σ) (low : Char → κ) (defs : List KeyDef) :
    (get_key_definitions fold low defs).Sorted (leKey low) ∧
    (get_key_definitions fold low defs).Perm
      (dedupe_same_value (dedupe_uppercase fold (dedupe_same_usage defs))) ∧
    (∀ c : κ,
      (get_key_definitions fold low defs).filter (fun d => decide (charKey low d = c)) =
        (dedupe_same_value (dedupe_uppercase fold (dedupe_same_usage defs))).filter
          (fun d => decide (charKey low d = c))) ∧
    sortKeyDefs foldDemo
        [((⟨∅, 7, 4⟩ : HidUsage), 'b'), ((⟨∅, 7, 5⟩ : HidUsage), 'A'),
          ((⟨∅, 7, 6⟩ : HidUsage), 'a'), ((⟨∅, 7, 7⟩ : HidUsage), 'C')] =
      [((⟨∅, 7, 5⟩ : HidUsage), 'A'), ((⟨∅, 7, 6⟩ : HidUsage), 'a'),
        ((⟨∅, 7, 4⟩ : HidUsage), 'b'), ((⟨∅, 7, 7⟩ : HidUsage), 'C')] ∧
    sortKeyDefs foldDemo
        [((⟨∅, 7, 4⟩ : HidUsage), 'ä'), ((⟨∅, 7, 5⟩ : HidUsage), 'Ä')] =
      [((⟨∅, 7, 4⟩ : HidUsage), 'ä'), ((⟨∅, 7, 5⟩ : HidUsage), 'Ä')] :=
  ⟨List.sorted_insertionSort (leKey low) _, List.perm_insertionSort (leKey low) _,
    fun c => filter_charKey_insertionSort low c _, by decide, by decide⟩

/-- C8: the key lookup follows alias indirection to a usage code; a chain
that is finite, acyclic and ends at a usage code yields that usage code
with no error, a missing name yields the KeyError, and a value that is
neither a usage code nor an alias yields the ValueError, in each case for
every sufficiently large fuel. -/
theorem C8_lookup_usage_contract (ks : KeyTable) :
    (∀ name u, ResolvesTo ks name u →
      ∃ N, ∀ fuel, N ≤ fuel → lookup_usage ks fuel name = .ok u) ∧
    (∀ name e, FailsWith ks name e →
      ∃ N, ∀ fuel, N ≤ fuel → lookup_usage ks fuel name = .error e) := by
  constructor
  · intro name u h
    induction h with
    | usage hfind =>
      refine ⟨1, ?_⟩
      intro fuel hf
      cases fuel with
      | zero => omega
      | succ f =>
        rw [lookup_usage, hfind]
    | step hfind _ ih =>
      obtain ⟨N, hN⟩ := ih
      refine ⟨N + 1, ?_⟩
      intro fuel hf
      cases fuel with
      | zero => omega
      | succ f =>
        rw [lookup_usage, hfind]
        exact hN f (by omega)
  · intro name e h
    induction h with
    | absent hfind =>
      refine ⟨1, ?_⟩
      intro fuel hf
      cases fuel with
      | zero => omega
      | succ f =>
        rw [lookup_usage, hfind]
    | invalid hfind =>
      refine ⟨1, ?_⟩
      intro fuel hf
      cases fuel with
      | zero => omega
      | succ f =>
        rw [lookup_usage, hfind]
    | step hfind _ ih =>
      obtain ⟨N, hN⟩ := ih
      refine ⟨N + 1, ?_⟩
      intro fuel hf
      cases fuel with
      | zero => omega
      | succ f =>
        rw [lookup_usage, hfind]
        exact hN f (by omega)

/-- C8 witness: on the table A aliased to B, B a usage code, C invalid, the
lookup resolves A through the alias to B's usage code, fails with KeyError
on the missing name Z, and fails with ValueError on C. -/
theorem C8_lookup_usage_witness :
    (∃ N, ∀ fuel, N ≤ fuel →
      lookup_usage
        [("A", KeyEntry.keyAlias "B"), ("B", KeyEntry.usage ⟨∅, 7, 4⟩),
          ("C", KeyEntry.invalid)] fuel "A" = .ok (⟨∅, 7, 4⟩ : HidUsage)) ∧
    (∃ N, ∀ fuel, N ≤ fuel →
      lookup_usage
        [("A", KeyEntry.keyAlias "B"), ("B", KeyEntry.usage ⟨∅, 7, 4⟩),
          ("C", KeyEntry.invalid)] fuel "Z" = .error .keyError) ∧
    (∃ N, ∀ fuel, N ≤ fuel →
      lookup_usage
        [("A", KeyEntry.keyAlias "B"), ("B", KeyEntry.usage ⟨∅, 7, 4⟩),
          ("C", KeyEntry.invalid)] fuel "C" = .error .valueError) :=
  ⟨(C8_lookup_usage_contract _).1 "A" _ (ResolvesTo.step rfl (ResolvesTo.usage rfl)),
    (C8_lookup_usage_contract _).2 "Z" _ (FailsWith.absent rfl),
    (C8_lookup_usage_contract _).2 "C" _ (FailsWith.invalid rfl)⟩

/-- C9: a definition whose character has no entry in the codepoint name
table resolves to no names and produces no output lines, and removing it
from the definition list leaves the emitted output of all other
definitions unchanged. -/
theorem C9_unresolved_character_skipped (ks : KeyTable) (cp : CodepointTable)
    (locale : String) (v : Char) (hv : v ∉ cp.map Prod.fst) :
    get_key_names ks cp locale v = none ∧
    ∀ (u : HidUsage) (ds1 ds2 : List KeyDef),
      emitDefs ks cp locale (ds1 ++ (u, v) :: ds2) =
        emitDefs ks cp locale (ds1 ++ ds2) := by
  have hfind : (cp.find? fun p => p.1 == v) = none := by
    rw [List.find?_eq_none]
    intro x hx
    simp only [beq_iff_eq]
    intro hxv
    exact hv (hxv ▸ List.mem_map_of_mem Prod.fst hx)
  have hnone : get_key_names ks cp locale v = none := by
    rw [get_key_names, hfind]
    rfl
  refine ⟨hnone, ?_⟩
  intro u ds1 ds2
  simp [emitDefs, hnone]

/-- C9 witness: with a table naming only the character a, a definition
producing B resolves to no names and contributes nothing to the output. -/
theorem C9_unresolved_character_witness :
    get_key_names [] [('a', NameEntry.one "A")] "de" 'B' = none ∧
    emitDefs [] [('a', NameEntry.one "A")] "de"
        ([] ++ ((⟨∅, 7, 4⟩ : HidUsage), 'B') :: []) =
      emitDefs [] [('a', NameEntry.one "A")] "de" ([] ++ []) :=
  ⟨(C9_unresolved_character_skipped [] [('a', NameEntry.one "A")] "de" 'B'
      (by decide)).1,
    (C9_unresolved_character_skipped [] [('a', NameEntry.one "A")] "de" 'B'
      (by decide)).2 ⟨∅, 7, 4⟩ [] []⟩

theorem prefixName_injective (locale : String) {a b : String}
    (h : prefixName locale a = prefixName locale b) : a = b := by
  rw [prefixName, prefixName] at h
  have hd := congrArg String.data h
  rw [String.data_append, String.data_append, String.data_append,
    String.data_append] at hd
  exact String.ext (List.append_cancel_left hd)

/-- C10: for a character present in the codepoint table, the produced name
list is the table fragments followed by exactly the key-table alias
entries whose target is one of the original fragments, all locale
prefixed; a prefixed name appears only for a fragment or for an alias
entry whose target is a fragment, so alias expansion is single level and
never transitive. -/
theorem C10_alias_expansion_single_level (ks : KeyTable) (cp : CodepointTable)
    (locale : String) (v : Char) (e : NameEntry)
    (he : (cp.find? fun p => p.1 == v).map Prod.snd = some e) :
    ∃ ns, get_key_names ks cp locale v = some ns ∧
      ns = (normalizeNames e ++
        (ks.filter fun kv => isAliasInto (normalizeNames e) kv.2).map Prod.fst).map
          (prefixName locale) ∧
      (∀ k t, (k, KeyEntry.keyAlias t) ∈ ks → t ∈ normalizeNames e →
        prefixName locale k ∈ ns) ∧
      (∀ k, prefixName locale k ∈ ns →
        k ∈ normalizeNames e ∨
          ∃ t, (k, KeyEntry.keyAlias t) ∈ ks ∧ t ∈ normalizeNames e) := by
  refine ⟨_, ?_, rfl, ?_, ?_⟩
  · rw [get_key_names, he]
  · intro k t hk ht
    refine List.mem_map_of_mem (prefixName locale) ?_
    refine List.mem_append_right _ ?_
    refine List.mem_map.mpr ⟨(k, KeyEntry.keyAlias t), ?_, rfl⟩
    exact List.mem_filter.mpr ⟨hk, by simp [isAliasInto, ht]⟩
  · intro k hk
    rcases List.mem_map.mp hk with ⟨k2, hk2, hpk⟩
    have hkk : k2 = k := prefixName_injective locale hpk
    subst hkk
    rcases List.mem_append.mp hk2 with h | h
    · exact Or.inl h
    · rcases List.mem_map.mp h with ⟨kv, hkv, hfst⟩
      have hkvf := List.mem_filter.mp hkv
      cases hkv2 : kv.2 with
      | usage u =>
        rw [hkv2] at hkvf
        exact absurd hkvf.2 (by simp [isAliasInto])
      | keyAlias t =>
        refine Or.inr ⟨t, ?_, ?_⟩
        · have hkveq : kv = (k2, KeyEntry.keyAlias t) := Prod.ext hfst hkv2
          exact hkveq ▸ hkvf.1
        · have hal := hkvf.2
          rw [hkv2] at hal
          simpa [isAliasInto] using hal
      | invalid =>
        rw [hkv2] at hkvf
        exact absurd hkvf.2 (by simp [isAliasInto])

/-- C10 witness: table entry e named Euro plus the key alias EuroSign
targeting Euro give exactly the names DE_Euro then DE_EuroSign. -/
theorem C10_alias_expansion_witness :
    get_key_names [("EuroSign", KeyEntry.keyAlias "Euro")] [('e', NameEntry.one "Euro")]
        "de" 'e' = some ["DE_Euro", "DE_EuroSign"] := by
  obtain ⟨ns, h1, h2, -, -⟩ :=
    C10_alias_expansion_single_level [("EuroSign", KeyEntry.keyAlias "Euro")]
      [('e', NameEntry.one "Euro")] "de" 'e' (NameEntry.one "Euro") rfl
  rw [h1, h2]
  decide

end ZmkLocale
